import Mathlib

/-!
Verification of the SAANS data-capture core (src/App.jsx): schema key
derivation (`toKey`), record CRUD (`handleSubmit`, `handleDelete`),
spreadsheet import reconciliation (`importExcel`) and export
serialization (`downloadExcel`), modelled as pure functions over
association lists that mirror JavaScript objects.
-/

set_option maxHeartbeats 1000000

namespace Saans

/-! ## JavaScript object model

A JS object is modelled as an association list in insertion order.
`getP` is property read (a missing property, JS `undefined`, is `none`),
`setP` is property assignment (overwrite in place keeping the original
position, append when the key is fresh), `keysOf` is `Object.keys`
(insertion order).  `hasOwnProperty` is `(getP o k).isSome`. -/

abbrev Obj := List (String × String)

def getP {α : Type} (o : List (String × α)) (k : String) : Option α :=
  (o.find? (fun p => p.1 == k)).map Prod.snd

def setP {α : Type} : List (String × α) → String → α → List (String × α)
  | [], k, v => [(k, v)]
  | p :: rest, k, v => if p.1 == k then (k, v) :: rest else p :: setP rest k v

def keysOf {α : Type} (o : List (String × α)) : List String :=
  o.map Prod.fst

/-! ## Key derivation

`toKey` renders
`label.toLowerCase().replace(/[^a-z0-9]+/g, "_").replace(/^_+|_+$/g, "")`
(src/App.jsx lines 35-39): lower-case every character, replace every
maximal run of characters outside `[a-z0-9]` by a single underscore,
then strip leading and trailing underscores.  Replacing each maximal run
by one underscore is rendered as the pointwise replacement `replChar`
followed by collapsing adjacent underscores (`squeezeUnders`), which is
extensionally the same substitution.  `Char.toLower` performs the same
basic-latin lowering as `String.prototype.toLowerCase` on every
character that can influence a key. -/

/-- Membership in `[a-z0-9]` (codepoints 97-122 and 48-57). -/
def isKeyChar (c : Char) : Bool :=
  (decide (97 ≤ c.toNat) && decide (c.toNat ≤ 122)) ||
  (decide (48 ≤ c.toNat) && decide (c.toNat ≤ 57))

def replChar (c : Char) : Char := if isKeyChar c then c else '_'

def squeezeUnders : List Char → List Char
  | [] => []
  | [c] => [c]
  | c :: d :: rest =>
    if c = '_' ∧ d = '_' then squeezeUnders (d :: rest)
    else c :: squeezeUnders (d :: rest)

def stripLead (l : List Char) : List Char := l.dropWhile (· == '_')

def stripTail (l : List Char) : List Char := (l.reverse.dropWhile (· == '_')).reverse

def rawKey (label : String) : List Char :=
  stripTail (stripLead (squeezeUnders ((label.data.map Char.toLower).map replChar)))

def toKey (label : String) : String := ⟨rawKey label⟩

/-! ## The schema (src/App.jsx lines 8-41) -/

def FIELD_LABELS : List String := [
  "Month ……………",
  "Name of the Block",
  "Name of Nodal Officer Incharge of SAANS 2025-26",
  "Whether SAANS 2025-26 was inaugurated at District Level?",
  "Number of Blocks that inaugurated SAANS 2025-26?",
  "No. of ASHAs trained on home visits for SAANS?",
  "No. of ANMS trained on SAANS?",
  "No. of Nursing Officers in PHCs, CHCs, Hospitals trained on SAANS?",
  "No. of Doctors trained on SAANS?",
  "No. of ASHAs that did house-to-house visits of under-five children?",
  "No. of under-five-children assessed by ASHAs for cough/difficulty in breathing/fast breathing?",
  "No. of under-five-children having symptoms and signs assessed by ANM/Staff Nurse/Medical Officer?",
  "No. of under-five-children administered pre-referral antibiotics/ORS/other medicines by ANM/Staff Nurse?",
  "No. of under-five-children referred to health facility by ASHA/ANM?",
  "No. of houses with at least 1 of the risk factors identified?",
  "No. of homes where counseling was done using M4M (Mother4Mother) approach?",
  "No. of under-five-children treated with cough syrup/ORS at community level?",
  "No. of under-five-children treated with Pneumonia treatment at community/PHC level?",
  "No. of under-five-children treated with Severe Pneumonia managed as per protocol?",
  "No. of under-five-children administered medications (antibiotics/ORS/other) as per guidelines?",
  "No. of Skill Station functional against approval",
  "Number of infants given PCV-1 vs number of infants eligible",
  "Number of infants given PCV-Booster vs number of infants eligible"]

def FIELD_KEYS : List String := FIELD_LABELS.map toKey

/-- The function builds `emptyRecord` (src/App.jsx line 44): fold the keys
into an object, giving every key the empty string. -/
def emptyRecord : Obj := FIELD_KEYS.foldl (fun acc k => setP acc k "") []

/-! ## JS whitespace and the case/whitespace-insensitive comparison

Tier 3 of the import matching compares `h.toLowerCase().trim()` with
`label.toLowerCase().trim()` (src/App.jsx line 140).  `isJsWs` is the
ECMAScript white-space/line-terminator set recognised by
`String.prototype.trim`. -/

def isJsWs (c : Char) : Bool :=
  c == ' ' || c == '\t' || c == '\n' || c == '\r' ||
  c.val == 11 || c.val == 12 || c.val == 0xA0 || c.val == 0x1680 ||
  (decide (0x2000 ≤ c.val) && decide (c.val ≤ 0x200A)) ||
  c.val == 0x2028 || c.val == 0x2029 || c.val == 0x202F ||
  c.val == 0x205F || c.val == 0x3000 || c.val == 0xFEFF

def jsTrim (l : List Char) : List Char :=
  ((l.dropWhile isJsWs).reverse.dropWhile isJsWs).reverse

/-- Renders `s.toLowerCase().trim()`. -/
def lowerTrim (s : String) : String := ⟨jsTrim (s.data.map Char.toLower)⟩

/-! ## Record store operations (src/App.jsx lines 66-93)

The form state starts from `{ ...emptyRecord }` and each `handleChange`
event assigns one property, so the record submitted by the form is
`buildFormRecord` of the change list.  `handleSubmit` either replaces
the record at `editingIndex` (when `editingIndex >= 0`) or appends;
`handleDelete` filters out one index.  A JS array write below the
length replaces in place; a write at the length appends.  A write past
the length creates holes at the skipped positions, which read as
`undefined`; the hole is rendered here as the empty object, a
representation no theorem below depends on. -/

def buildFormRecord (v : List (String × String)) : Obj :=
  v.foldl (fun acc p => setP acc p.1 p.2) emptyRecord

def jsArraySet (l : List Obj) (i : Nat) (x : Obj) : List Obj :=
  if i < l.length then l.set i x
  else l ++ List.replicate (i - l.length) [] ++ [x]

def handleSubmit (records : List Obj) (editingIndex : Int) (form : Obj) : List Obj :=
  if 0 ≤ editingIndex then jsArraySet records editingIndex.toNat form
  else records ++ [form]

def handleDelete (records : List Obj) (i : Int) : List Obj :=
  ((records.enum.filter (fun p => !((p.1 : Int) == i))).map Prod.snd)

/-! ## Export serialization (src/App.jsx lines 95-113)

`downloadExcel` refuses an empty collection (the `EmptyInput` advisory)
and otherwise builds one output row per record: a fresh object given
one property per schema field, `row[FIELD_LABELS[idx]] = rec[k]`.  The
cell value is `Option String` because `rec[k]` is `undefined` when the
record lacks the key. -/

inductive ExportOutcome where
  | emptyInput
  | fileRows (rows : List (List (String × Option String)))
deriving DecidableEq

def exportRow (rec : Obj) : List (String × Option String) :=
  (FIELD_LABELS.zip FIELD_KEYS).foldl (fun row p => setP row p.1 (getP rec p.2)) []

def downloadExcel (records : List Obj) : ExportOutcome :=
  if records.length = 0 then .emptyInput
  else .fileRows (records.map exportRow)

/-! ## Import reconciliation (src/App.jsx lines 115-151)

Decoding the spreadsheet (`XLSX.utils.sheet_to_json`) is the external
codec; `importExcel` takes its output `json` directly.  Zero rows is
the `NoDataFound` advisory and leaves the records untouched.  Otherwise
each row independently becomes one record (`mapRow`), starting from
`{ ...emptyRecord }` and resolving each field by: exact label property,
else exact key property, else the first header whose
`toLowerCase().trim()` form equals the label's (skipped when that
header is the empty string, which is falsy in the `if (matchKey)`
test). -/

inductive ImportOutcome where
  | noDataFound
  | imported (count : Nat)
deriving DecidableEq

def applyField (row : Obj) (out : Obj) (label key : String) : Obj :=
  match getP row label with
  | some v => setP out key v
  | none =>
    match getP row key with
    | some v => setP out key v
    | none =>
      match (keysOf row).find? (fun h => lowerTrim h == lowerTrim label) with
      | some h => if h == "" then out else setP out key ((getP row h).getD "")
      | none => out

def mapRow (row : Obj) : Obj :=
  (FIELD_LABELS.zip FIELD_KEYS).foldl (fun out p => applyField row out p.1 p.2) emptyRecord

def importExcel (records : List Obj) (json : List Obj) : List Obj × ImportOutcome :=
  if json.length = 0 then (records, .noDataFound)
  else
    let mapped := json.map mapRow
    (records ++ mapped, .imported mapped.length)

/-! ## Spec-side definitions

`specResolve` renders the specification's three-tier matching policy in
its own words (spec §4.3): exact label match, else exact key match,
else the first header in row order whose lower-cased trimmed form
equals the lower-cased trimmed label, else the empty string.  It is
compared against the code's `mapRow` below. -/

def specResolve (row : Obj) (label key : String) : String :=
  match getP row label with
  | some v => v
  | none =>
    match getP row key with
    | some v => v
    | none =>
      match (keysOf row).find? (fun h => lowerTrim h == lowerTrim label) with
      | some h => (getP row h).getD ""
      | none => ""

/-! Operation sequences over the record collection, for the schema-keys
invariant: `create` and `update` submit a form built from `emptyRecord`
by `handleChange` assignments (the app's inputs are named by schema
keys, which `opOK` captures; `opOK` also captures the valid index the
spec requires of `update`), and `importRows` appends the reconciler's
output. -/

inductive Op where
  | create (v : List (String × String))
  | update (i : Nat) (v : List (String × String))
  | importRows (rows : List Obj)

def stepOp (rs : List Obj) : Op → List Obj
  | .create v => handleSubmit rs (-1) (buildFormRecord v)
  | .update i v => handleSubmit rs (i : Int) (buildFormRecord v)
  | .importRows rows => (importExcel rs rows).1

def opOK (rs : List Obj) : Op → Bool
  | .create v => v.all (fun p => FIELD_KEYS.contains p.1)
  | .update i v => decide (i < rs.length) && v.all (fun p => FIELD_KEYS.contains p.1)
  | .importRows _ => true

def opsOK : List Obj → List Op → Bool
  | _, [] => true
  | rs, op :: rest => opOK rs op && opsOK (stepOp rs op) rest

def runOps (rs : List Obj) (ops : List Op) : List Obj := ops.foldl stepOp rs

/-! ## Association-list lemmas -/

theorem getP_setP_self {α : Type} (o : List (String × α)) (k : String) (v : α) :
    getP (setP o k v) k = some v := by
  induction o with
  | nil => simp [getP, setP]
  | cons p rest ih =>
    by_cases h : p.1 = k
    · simp [getP, setP, h]
    · simp only [setP, beq_iff_eq, if_neg h]
      simpa [getP, List.find?_cons, h] using ih

theorem getP_setP_ne {α : Type} (o : List (String × α)) {k k' : String} (v : α)
    (hne : k' ≠ k) : getP (setP o k' v) k = getP o k := by
  induction o with
  | nil => simp [getP, setP, hne]
  | cons p rest ih =>
    by_cases h : p.1 = k'
    · simp [getP, setP, h, hne, List.find?_cons]
    · simp only [setP, beq_iff_eq, if_neg h]
      by_cases hk : p.1 = k
      · simp [getP, List.find?_cons, hk]
      · simpa [getP, List.find?_cons, hk] using ih

theorem keysOf_setP_of_mem {α : Type} (o : List (String × α)) {k : String} (v : α)
    (hk : k ∈ keysOf o) : keysOf (setP o k v) = keysOf o := by
  induction o with
  | nil => simp [keysOf] at hk
  | cons p rest ih =>
    by_cases h : p.1 = k
    · simp [keysOf, setP, h]
    · have hk' : k ∈ keysOf rest := by
        rcases (by simpa [keysOf] using hk) with h1 | h1
        · exact absurd h1.symm h
        · simpa [keysOf] using h1
      simp only [setP, beq_iff_eq, if_neg h, keysOf, List.map_cons]
      have hrw := ih hk'
      simp only [keysOf] at hrw
      rw [hrw]

theorem setP_of_not_mem {α : Type} (o : List (String × α)) {k : String} (v : α)
    (hk : k ∉ keysOf o) : setP o k v = o ++ [(k, v)] := by
  induction o with
  | nil => simp [setP]
  | cons p rest ih =>
    have hne : p.1 ≠ k := fun h => hk (by simp [keysOf, h])
    have hk' : k ∉ keysOf rest := fun h => hk (by simp [keysOf] at h ⊢; exact .inr h)
    simp only [setP, beq_iff_eq, if_neg hne, List.cons_append, List.cons.injEq, true_and]
    exact ih hk'

theorem getP_isSome_of_mem {α : Type} (o : List (String × α)) {k : String}
    (hk : k ∈ keysOf o) : (getP o k).isSome = true := by
  induction o with
  | nil => simp [keysOf] at hk
  | cons p rest ih =>
    by_cases h : p.1 = k
    · simp [getP, List.find?_cons, h]
    · have hk' : k ∈ keysOf rest := by
        rcases (by simpa [keysOf] using hk) with h1 | h1
        · exact absurd h1.symm h
        · simpa [keysOf] using h1
      simpa [getP, List.find?_cons, h] using ih hk'

theorem getP_eq_none_of_not_mem {α : Type} (o : List (String × α)) {k : String}
    (hk : k ∉ keysOf o) : getP o k = none := by
  induction o with
  | nil => simp [getP]
  | cons p rest ih =>
    have hne : p.1 ≠ k := fun h => hk (by simp [keysOf, h])
    have hk' : k ∉ keysOf rest := fun h => hk (by simp [keysOf] at h ⊢; exact .inr h)
    simpa [getP, List.find?_cons, hne] using ih hk'

/-! ## Structural facts about key derivation -/

theorem mem_of_mem_squeezeUnders {c : Char} :
    ∀ (l : List Char), c ∈ squeezeUnders l → c ∈ l := by
  intro l
  induction l using squeezeUnders.induct with
  | case1 => simp [squeezeUnders]
  | case2 d => simp [squeezeUnders]
  | case3 a d rest h ih =>
    intro hc
    simp only [squeezeUnders, if_pos h] at hc
    exact List.mem_cons_of_mem _ (ih hc)
  | case4 a d rest h ih =>
    intro hc
    simp only [squeezeUnders, if_neg h] at hc
    rcases List.mem_cons.mp hc with rfl | hc
    · exact List.mem_cons_self _ _
    · exact List.mem_cons_of_mem _ (ih hc)

theorem mem_squeezeUnders_of_ne {c : Char} (hne : c ≠ '_') :
    ∀ (l : List Char), c ∈ l → c ∈ squeezeUnders l := by
  intro l
  induction l using squeezeUnders.induct with
  | case1 => simp
  | case2 d => simp [squeezeUnders]
  | case3 a d rest h ih =>
    intro hc
    simp only [squeezeUnders, if_pos h]
    rcases List.mem_cons.mp hc with rfl | hc
    · exact absurd h.1 hne
    · exact ih hc
  | case4 a d rest h ih =>
    intro hc
    simp only [squeezeUnders, if_neg h]
    rcases List.mem_cons.mp hc with rfl | hc
    · exact List.mem_cons_self _ _
    · exact List.mem_cons_of_mem _ (ih hc)

theorem head?_squeezeUnders : ∀ (l : List Char), (squeezeUnders l).head? = l.head? := by
  intro l
  induction l using squeezeUnders.induct with
  | case1 => rfl
  | case2 d => rfl
  | case3 a d rest h ih =>
    simp only [squeezeUnders, if_pos h]
    rw [ih]
    simp [h.1, h.2]
  | case4 a d rest h ih => simp [squeezeUnders, if_neg h]

theorem chain'_squeezeUnders : ∀ (l : List Char),
    (squeezeUnders l).Chain' (fun a b => ¬(a = '_' ∧ b = '_')) := by
  intro l
  induction l using squeezeUnders.induct with
  | case1 => simp [squeezeUnders]
  | case2 d => simp [squeezeUnders]
  | case3 a d rest h ih => simpa [squeezeUnders, if_pos h] using ih
  | case4 a d rest h ih =>
    simp only [squeezeUnders, if_neg h]
    refine List.chain'_cons'.mpr ⟨?_, ih⟩
    intro y hy
    rw [head?_squeezeUnders] at hy
    simp only [List.head?_cons, Option.mem_def, Option.some.injEq] at hy
    subst hy
    exact h

theorem squeezeUnders_eq_self : ∀ (l : List Char),
    l.Chain' (fun a b => ¬(a = '_' ∧ b = '_')) → squeezeUnders l = l := by
  intro l
  induction l using squeezeUnders.induct with
  | case1 => intro _; rfl
  | case2 d => intro _; rfl
  | case3 a d rest h ih =>
    intro hch
    exact absurd h (List.chain'_cons.mp hch).1
  | case4 a d rest h ih =>
    intro hch
    simp only [squeezeUnders, if_neg h]
    rw [ih (List.chain'_cons.mp hch).2]

theorem head?_dropWhile_not {α : Type} (p : α → Bool) :
    ∀ (l : List α) {a : α}, (l.dropWhile p).head? = some a → p a = false := by
  intro l
  induction l with
  | nil => intro a h; simp at h
  | cons c cs ih =>
    intro a h
    rw [List.dropWhile_cons] at h
    by_cases hc : p c
    · rw [if_pos hc] at h; exact ih h
    · rw [if_neg hc] at h
      simp only [List.head?_cons, Option.some.injEq] at h
      subst h
      simpa using hc

theorem dropWhile_eq_self_of_head {α : Type} (p : α → Bool) (l : List α)
    (h : ∀ a, l.head? = some a → p a = false) : l.dropWhile p = l := by
  cases l with
  | nil => rfl
  | cons c cs => rw [List.dropWhile_cons, if_neg (by simp [h c rfl])]

theorem mem_dropWhile_of_neg {α : Type} (p : α → Bool) {l : List α} {c : α}
    (hc : c ∈ l) (hp : p c = false) : c ∈ l.dropWhile p := by
  have hc' : c ∈ l.takeWhile p ++ l.dropWhile p := by
    rw [List.takeWhile_append_dropWhile]; exact hc
  rcases List.mem_append.mp hc' with h | h
  · exact absurd (List.mem_takeWhile_imp h) (by simp [hp])
  · exact h

theorem chain'_dropWhile {α : Type} {R : α → α → Prop} (p : α → Bool) :
    ∀ (l : List α), l.Chain' R → (l.dropWhile p).Chain' R := by
  intro l
  induction l with
  | nil => intro h; exact h
  | cons c cs ih =>
    intro h
    rw [List.dropWhile_cons]
    by_cases hc : p c
    · rw [if_pos hc]; exact ih (List.chain'_cons'.mp h).2
    · rw [if_neg hc]; exact h

theorem stripLead_eq_self {l : List Char} (h : l.head? ≠ some '_') : stripLead l = l := by
  refine dropWhile_eq_self_of_head _ l ?_
  intro a ha
  have : a ≠ '_' := fun he => h (he ▸ ha)
  simpa using this

theorem head?_stripLead_ne {l : List Char} {a : Char}
    (h : (stripLead l).head? = some a) : a ≠ '_' := by
  have := head?_dropWhile_not _ l h
  simpa using this

theorem stripTail_append_eq (l : List Char) :
    stripTail l ++ (l.reverse.takeWhile (· == '_')).reverse = l := by
  unfold stripTail
  rw [← List.reverse_append, List.takeWhile_append_dropWhile, List.reverse_reverse]

theorem mem_of_mem_stripTail {l : List Char} {c : Char} (h : c ∈ stripTail l) : c ∈ l := by
  have hsplit := stripTail_append_eq l
  rw [← hsplit]
  exact List.mem_append.mpr (.inl h)

theorem mem_stripTail_of_ne {l : List Char} {c : Char} (hc : c ∈ l) (hne : c ≠ '_') :
    c ∈ stripTail l := by
  unfold stripTail
  rw [List.mem_reverse]
  exact mem_dropWhile_of_neg _ (List.mem_reverse.mpr hc) (by simp [hne])

theorem getLast?_stripTail_ne {l : List Char} {a : Char}
    (h : (stripTail l).getLast? = some a) : a ≠ '_' := by
  unfold stripTail at h
  rw [List.getLast?_reverse] at h
  have := head?_dropWhile_not _ _ h
  simpa using this

theorem stripTail_eq_self {l : List Char} (h : l.getLast? ≠ some '_') : stripTail l = l := by
  unfold stripTail
  rw [dropWhile_eq_self_of_head _ _ ?_, List.reverse_reverse]
  intro a ha
  rw [List.head?_reverse] at ha
  have : a ≠ '_' := fun he => h (he ▸ ha)
  simpa using this

theorem head?_stripTail {l : List Char} {a : Char} (h : (stripTail l).head? = some a) :
    l.head? = some a := by
  have hd := stripTail_append_eq l
  calc l.head? = (stripTail l ++ (l.reverse.takeWhile (· == '_')).reverse).head? := by rw [hd]
  _ = some a := by rw [List.head?_append, h]; rfl

theorem chain'_stripTail {l : List Char}
    (h : l.Chain' (fun a b => ¬(a = '_' ∧ b = '_'))) :
    (stripTail l).Chain' (fun a b => ¬(a = '_' ∧ b = '_')) := by
  unfold stripTail
  refine (List.chain'_reverse).mpr ?_
  refine chain'_dropWhile _ _ ?_
  exact (List.chain'_reverse).mpr h

theorem toLower_eq_self_of_isKeyChar {c : Char} (h : isKeyChar c = true) :
    Char.toLower c = c := by
  have hn : ¬(c.toNat ≥ 65 ∧ c.toNat ≤ 90) := by
    simp only [isKeyChar, Bool.or_eq_true, Bool.and_eq_true, decide_eq_true_eq] at h
    omega
  unfold Char.toLower
  simp [hn]

theorem toLower_eq_self_of_class {c : Char} (h : isKeyChar c = true ∨ c = '_') :
    Char.toLower c = c := by
  rcases h with h | rfl
  · exact toLower_eq_self_of_isKeyChar h
  · decide

theorem replChar_class (c : Char) : isKeyChar (replChar c) = true ∨ replChar c = '_' := by
  unfold replChar
  by_cases h : isKeyChar c <;> simp [h]

theorem replChar_eq_self {c : Char} (h : isKeyChar c = true ∨ c = '_') : replChar c = c := by
  rcases h with h | rfl
  · simp [replChar, h]
  · decide

theorem pass_maps_eq_self {l : List Char} (h : ∀ c ∈ l, isKeyChar c = true ∨ c = '_') :
    (l.map Char.toLower).map replChar = l := by
  induction l with
  | nil => rfl
  | cons c cs ih =>
    have hc := h c (List.mem_cons_self _ _)
    have hcs := fun d hd => h d (List.mem_cons_of_mem _ hd)
    simp only [List.map_cons, toLower_eq_self_of_class hc, replChar_eq_self hc, ih hcs]

theorem rawKey_class (label : String) :
    ∀ c ∈ rawKey label, isKeyChar c = true ∨ c = '_' := by
  intro c hc
  have h1 : c ∈ stripLead (squeezeUnders ((label.data.map Char.toLower).map replChar)) :=
    mem_of_mem_stripTail hc
  have h2 : c ∈ squeezeUnders ((label.data.map Char.toLower).map replChar) :=
    List.Sublist.mem h1 (List.dropWhile_sublist _)
  have h3 : c ∈ (label.data.map Char.toLower).map replChar :=
    mem_of_mem_squeezeUnders _ h2
  rcases List.mem_map.mp h3 with ⟨d, _, rfl⟩
  exact replChar_class d

theorem rawKey_head (label : String) : (rawKey label).head? ≠ some '_' := by
  intro hcontra
  exact absurd rfl (head?_stripLead_ne (head?_stripTail hcontra))

theorem rawKey_last (label : String) : (rawKey label).getLast? ≠ some '_' := by
  intro hcontra
  exact absurd rfl (getLast?_stripTail_ne hcontra)

theorem rawKey_chain (label : String) :
    (rawKey label).Chain' (fun a b => ¬(a = '_' ∧ b = '_')) :=
  chain'_stripTail (chain'_dropWhile _ _ (chain'_squeezeUnders _))

theorem rawKey_fixed (label : String) : rawKey ⟨rawKey label⟩ = rawKey label := by
  have h1 : (((⟨rawKey label⟩ : String).data.map Char.toLower).map replChar) = rawKey label :=
    pass_maps_eq_self (rawKey_class label)
  show stripTail (stripLead (squeezeUnders
    (((⟨rawKey label⟩ : String).data.map Char.toLower).map replChar))) = rawKey label
  rw [h1]
  rw [squeezeUnders_eq_self _ (rawKey_chain label)]
  rw [stripLead_eq_self (rawKey_head label)]
  exact stripTail_eq_self (rawKey_last label)

/-! ## Concrete schema facts -/

theorem field_keys_nodup : FIELD_KEYS.Nodup := by decide

theorem field_labels_nodup : FIELD_LABELS.Nodup := by decide

theorem keysOf_emptyRecord : keysOf emptyRecord = FIELD_KEYS := by decide

theorem getP_emptyRecord_all :
    FIELD_KEYS.all (fun k => getP emptyRecord k == some "") = true := by decide

theorem getP_emptyRecord {k : String} (hk : k ∈ FIELD_KEYS) : getP emptyRecord k = some "" := by
  have h := List.all_eq_true.mp getP_emptyRecord_all k hk
  simpa [beq_iff_eq] using h

theorem labels_lowerTrim_ne :
    FIELD_LABELS.all (fun l => !(lowerTrim l == "")) = true := by decide

theorem lowerTrim_label_ne {l : String} (hl : l ∈ FIELD_LABELS) : lowerTrim l ≠ "" := by
  have h := List.all_eq_true.mp labels_lowerTrim_ne l hl
  simpa [beq_iff_eq] using h

theorem length_field_keys : FIELD_KEYS.length = FIELD_LABELS.length := by
  simp [FIELD_KEYS]

theorem fieldPairs_map_snd :
    (FIELD_LABELS.zip FIELD_KEYS).map Prod.snd = FIELD_KEYS :=
  List.map_snd_zip _ _ (le_of_eq length_field_keys)

theorem fieldPairs_map_fst :
    (FIELD_LABELS.zip FIELD_KEYS).map Prod.fst = FIELD_LABELS :=
  List.map_fst_zip _ _ (ge_of_eq length_field_keys)

theorem length_fieldPairs :
    (FIELD_LABELS.zip FIELD_KEYS).length = FIELD_LABELS.length := by
  simp [List.length_zip, length_field_keys]

/-! ## Claim theorems -/

/-- C9: the 23 concrete field labels of the schema derive pairwise-distinct
keys under `toKey`, so the registry's unenforced key-uniqueness assumption
does hold for this schema as constructed. -/
theorem field_keys_pairwise_distinct :
    FIELD_LABELS.length = 23 ∧ (FIELD_LABELS.map toKey).Nodup :=
  ⟨by decide, field_keys_nodup⟩

/-- C7: `toKey` is deterministic — the same label always yields the same
key — and idempotent on its own output: `toKey (toKey label) = toKey label`
for every label. -/
theorem toKey_deterministic_idempotent (label : String) :
    toKey label = toKey label ∧ toKey (toKey label) = toKey label :=
  ⟨rfl, congrArg String.mk (rawKey_fixed label)⟩

/-- C6 counterexample: the claim says every non-empty label derives a
non-empty key, but the non-empty label `"!"` (no alphanumeric characters)
derives the empty key. -/
theorem toKey_nonalnum_empty_cex : ("!" : String) ≠ "" ∧ toKey "!" = "" :=
  ⟨by decide, by decide⟩

/-- C6 amended: for every label containing at least one character that is
alphanumeric after lowering, `toKey` returns a non-empty key consisting
only of lowercase alphanumerics and underscores, with no leading
underscore, no trailing underscore, and no two adjacent underscores.
(A label with no such character — e.g. all punctuation — derives the
empty key, the degenerate case the spec itself flags in §4.1.) -/
theorem toKey_alnum_label_wellformed (label : String)
    (h : ∃ c ∈ label.data, isKeyChar (Char.toLower c) = true) :
    toKey label ≠ "" ∧
    (∀ c ∈ (toKey label).data, isKeyChar c = true ∨ c = '_') ∧
    (toKey label).data.head? ≠ some '_' ∧
    (toKey label).data.getLast? ≠ some '_' ∧
    (toKey label).data.Chain' (fun a b => ¬(a = '_' ∧ b = '_')) := by
  refine ⟨?_, rawKey_class label, rawKey_head label, rawKey_last label, rawKey_chain label⟩
  rcases h with ⟨c, hc, hkey⟩
  have hne : Char.toLower c ≠ '_' := by
    intro he
    rw [he] at hkey
    exact absurd hkey (by decide)
  have h1 : Char.toLower c ∈ label.data.map Char.toLower := List.mem_map_of_mem _ hc
  have h2 : Char.toLower c ∈ (label.data.map Char.toLower).map replChar := by
    have hm := List.mem_map_of_mem replChar h1
    rwa [replChar_eq_self (Or.inl hkey)] at hm
  have h3 := mem_squeezeUnders_of_ne hne _ h2
  have h4 : Char.toLower c ∈ stripLead (squeezeUnders ((label.data.map Char.toLower).map replChar)) :=
    mem_dropWhile_of_neg _ h3 (by simp [hne])
  have h5 : Char.toLower c ∈ rawKey label := mem_stripTail_of_ne h4 hne
  intro hempty
  have hdata : (toKey label).data = [] := by rw [hempty]
  have h6 : Char.toLower c ∈ (toKey label).data := h5
  rw [hdata] at h6
  simp at h6

/-- C6 amended witness at the schema label `"Name of the Block"`. -/
theorem toKey_alnum_label_wellformed_witness : toKey "Name of the Block" ≠ "" :=
  (toKey_alnum_label_wellformed "Name of the Block" ⟨'N', by decide, by decide⟩).1

/-- C4: exporting an empty collection signals the `EmptyInput` advisory and
produces no rows (`downloadExcel` reads the collection and never modifies
it), and importing zero decoded rows signals the `NoDataFound` advisory and
returns the record collection untouched. -/
theorem empty_export_and_import_advisory :
    downloadExcel [] = ExportOutcome.emptyInput ∧
    ∀ rs : List Obj, importExcel rs [] = (rs, ImportOutcome.noDataFound) :=
  ⟨rfl, fun _ => rfl⟩

theorem handleDelete_invalid (rs : List Obj) (i : Int)
    (hi : i < 0 ∨ (rs.length : Int) ≤ i) : handleDelete rs i = rs := by
  unfold handleDelete
  rw [List.filter_eq_self.mpr, List.enum_map_snd]
  intro p hp
  rcases p with ⟨idx, r⟩
  have hidx := (List.mem_enum hp).1
  have : (idx : Int) ≠ i := by
    rcases hi with h | h <;> omega
  simpa using this

/-- C2 counterexample: with the out-of-range index `5` on a one-record
collection, `handleDelete` returns the collection unchanged as an ordinary
result, and with the out-of-range index `0` on the empty collection the
update branch of `handleSubmit` writes the record (JS array assignment at
the length appends); neither operation produces any `IndexOutOfRange`
failure — the code has no error channel at all on these paths. -/
theorem invalid_index_signals_no_error_cex :
    handleDelete [emptyRecord] 5 = [emptyRecord] ∧
    handleSubmit [] 0 emptyRecord = [emptyRecord] :=
  ⟨by decide, by decide⟩

/-- C2 amended: update and delete perform no bounds check and signal no
error for invalid indices: `handleDelete` at any out-of-range index
returns the collection unchanged, and the update branch of `handleSubmit`
at index = length appends the record instead of failing. -/
theorem invalid_index_operations_succeed (rs : List Obj) (i : Int) (v : Obj)
    (hi : i < 0 ∨ (rs.length : Int) ≤ i) :
    handleDelete rs i = rs ∧
    handleSubmit rs (rs.length : Int) v = rs ++ [v] := by
  refine ⟨handleDelete_invalid rs i hi, ?_⟩
  unfold handleSubmit jsArraySet
  rw [if_pos (by omega)]
  rw [Int.toNat_ofNat]
  rw [if_neg (by omega)]
  simp

/-- C2 amended witness at the concrete invalid index `-3`. -/
theorem invalid_index_operations_succeed_witness :
    handleDelete [emptyRecord] (-3) = [emptyRecord] ∧
    handleSubmit [emptyRecord] (([emptyRecord] : List Obj).length : Int) emptyRecord
      = [emptyRecord] ++ [emptyRecord] :=
  invalid_index_operations_succeed [emptyRecord] (-3) emptyRecord (Or.inl (by decide))

/-- C10: `handleDelete` with an index outside the valid range (negative,
or at least the collection length) leaves the record collection entirely
unchanged; being a total function into the new collection, it raises no
error. -/
theorem delete_invalid_index_noop (rs : List Obj) (i : Int)
    (hi : i < 0 ∨ (rs.length : Int) ≤ i) : handleDelete rs i = rs :=
  handleDelete_invalid rs i hi

/-- C10 witness: deleting index 2 from a one-record collection. -/
theorem delete_invalid_index_noop_witness : handleDelete [emptyRecord] 2 = [emptyRecord] :=
  delete_invalid_index_noop [emptyRecord] 2 (Or.inr (by decide))

/-- C8: for every valid index `i` and value mapping `v`, updating at `i`
with the full record built from `v` keeps the collection length, puts the
full record at position `i`, and leaves every other position unchanged. -/
theorem update_frame_effect (rs : List Obj) (i : Nat) (v : List (String × String))
    (h : i < rs.length) :
    (handleSubmit rs (i : Int) (buildFormRecord v)).length = rs.length ∧
    (handleSubmit rs (i : Int) (buildFormRecord v)).getD i [] = buildFormRecord v ∧
    ∀ j, j < rs.length → j ≠ i →
      (handleSubmit rs (i : Int) (buildFormRecord v)).getD j [] = rs.getD j [] := by
  have hsub : handleSubmit rs (i : Int) (buildFormRecord v)
      = rs.set i (buildFormRecord v) := by
    unfold handleSubmit jsArraySet
    rw [if_pos (Int.natCast_nonneg i), Int.toNat_ofNat, if_pos h]
  rw [hsub]
  refine ⟨by simp, ?_, ?_⟩
  · have hlen : i < (rs.set i (buildFormRecord v)).length := by simpa using h
    rw [List.getD_eq_getElem _ _ hlen]
    exact List.getElem_set_self hlen
  · intro j hj hne
    have hlen : j < (rs.set i (buildFormRecord v)).length := by simpa using hj
    rw [List.getD_eq_getElem _ _ hlen, List.getD_eq_getElem _ _ hj]
    exact List.getElem_set_ne (fun he => hne he.symm) hlen

/-- C8 witness at a one-record collection, index 0. -/
theorem update_frame_effect_witness :
    (handleSubmit [emptyRecord] ((0 : Nat) : Int) (buildFormRecord [])).getD 0 []
      = buildFormRecord [] :=
  (update_frame_effect [emptyRecord] 0 [] (by decide)).2.1

/-! ## The tier-resolution theorem for import -/

theorem getP_applyField_ne (row out : Obj) {label key k : String} (hne : key ≠ k) :
    getP (applyField row out label key) k = getP out k := by
  unfold applyField
  cases h1 : getP row label with
  | some v => exact getP_setP_ne out v hne
  | none =>
    cases h2 : getP row key with
    | some v => exact getP_setP_ne out v hne
    | none =>
      cases h3 : (keysOf row).find? (fun h => lowerTrim h == lowerTrim label) with
      | some hh =>
        show getP (if (hh == "") = true then out
          else setP out key ((getP row hh).getD "")) k = getP out k
        by_cases h4 : hh = ""
        · rw [if_pos (by simpa using h4)]
        · rw [if_neg (by simpa using h4)]
          exact getP_setP_ne out _ hne
      | none => rfl

theorem getP_foldl_applyField_not_mem (row : Obj) :
    ∀ (P : List (String × String)) (out : Obj) {k : String}, k ∉ P.map Prod.snd →
      getP (P.foldl (fun o p => applyField row o p.1 p.2) out) k = getP out k := by
  intro P
  induction P with
  | nil => intro out k _; rfl
  | cons p rest ih =>
    intro out k hk
    rw [List.foldl_cons]
    have h1 : k ∉ rest.map Prod.snd := fun hx => hk (by simp [hx])
    have h2 : p.2 ≠ k := fun he => hk (by simp [he])
    rw [ih _ h1, getP_applyField_ne row out h2]

theorem getP_applyField_self (row out : Obj) {label key : String}
    (hout : getP out key = some "") (hlab : lowerTrim label ≠ "") :
    getP (applyField row out label key) key = some (specResolve row label key) := by
  unfold applyField specResolve
  cases h1 : getP row label with
  | some v => exact getP_setP_self out key v
  | none =>
    cases h2 : getP row key with
    | some v => exact getP_setP_self out key v
    | none =>
      cases h3 : (keysOf row).find? (fun h => lowerTrim h == lowerTrim label) with
      | some hh =>
        have hne : hh ≠ "" := by
          intro he
          have hp := List.find?_some h3
          rw [he] at hp
          have heq : lowerTrim "" = lowerTrim label := by simpa [beq_iff_eq] using hp
          exact hlab (by rw [← heq]; rfl)
        show getP (if (hh == "") = true then out
            else setP out key ((getP row hh).getD "")) key
          = some ((getP row hh).getD "")
        rw [if_neg (by simpa using hne)]
        exact getP_setP_self out key _
      | none => exact hout

theorem getP_foldl_applyField_at (row : Obj) :
    ∀ (P : List (String × String)) (out : Obj) (idx : Nat) (h : idx < P.length),
      (P.map Prod.snd).Nodup →
      getP out P[idx].2 = some "" →
      lowerTrim P[idx].1 ≠ "" →
      getP (P.foldl (fun o p => applyField row o p.1 p.2) out) P[idx].2
        = some (specResolve row P[idx].1 P[idx].2) := by
  intro P
  induction P with
  | nil => intro out idx h; simp at h
  | cons p rest ih =>
    intro out idx h hnd hout hlab
    rw [List.foldl_cons]
    have hnd2 : (p.2 :: rest.map Prod.snd).Nodup := by
      rw [List.map_cons] at hnd; exact hnd
    have hcons := List.nodup_cons.mp hnd2
    cases idx with
    | zero =>
      rw [List.getElem_cons_zero] at hout hlab ⊢
      rw [getP_foldl_applyField_not_mem row rest _ hcons.1]
      exact getP_applyField_self row out hout hlab
    | succ n =>
      rw [List.getElem_cons_succ] at hout hlab ⊢
      have hn : n < rest.length := Nat.lt_of_succ_lt_succ h
      refine ih _ n hn hcons.2 ?_ hlab
      have hkey : rest[n].2 ∈ rest.map Prod.snd :=
        List.mem_map_of_mem _ (List.getElem_mem hn)
      have hne : p.2 ≠ rest[n].2 := fun he => hcons.1 (he ▸ hkey)
      rw [getP_applyField_ne row out hne]
      exact hout

/-- C1: for every import row and every schema field, the imported record's
value at the field's key is resolved exactly by the spec's three-tier
policy (`specResolve`): byte-for-byte label property, else exact key
property, else the first header in row order whose lower-cased trimmed
form equals the lower-cased trimmed label, else the empty string. -/
theorem mapRow_resolves_by_tier_policy (row : Obj) (idx : Nat)
    (h : idx < FIELD_LABELS.length) :
    getP (mapRow row) (FIELD_KEYS.getD idx "")
      = some (specResolve row (FIELD_LABELS.getD idx "") (FIELD_KEYS.getD idx "")) := by
  have hk : idx < FIELD_KEYS.length := by rw [length_field_keys]; exact h
  have hp : idx < (FIELD_LABELS.zip FIELD_KEYS).length := by rw [length_fieldPairs]; exact h
  have hpair : (FIELD_LABELS.zip FIELD_KEYS)[idx]
      = (FIELD_LABELS.getD idx "", FIELD_KEYS.getD idx "") := by
    rw [List.getElem_zip, List.getD_eq_getElem _ _ h, List.getD_eq_getElem _ _ hk]
  have hnd : ((FIELD_LABELS.zip FIELD_KEYS).map Prod.snd).Nodup := by
    rw [fieldPairs_map_snd]; exact field_keys_nodup
  have hmem : FIELD_KEYS.getD idx "" ∈ FIELD_KEYS := by
    rw [List.getD_eq_getElem _ _ hk]; exact List.getElem_mem hk
  have hmeml : FIELD_LABELS.getD idx "" ∈ FIELD_LABELS := by
    rw [List.getD_eq_getElem _ _ h]; exact List.getElem_mem h
  have h1 : getP emptyRecord (FIELD_LABELS.zip FIELD_KEYS)[idx].2 = some "" := by
    rw [hpair]; exact getP_emptyRecord hmem
  have h2 : lowerTrim (FIELD_LABELS.zip FIELD_KEYS)[idx].1 ≠ "" := by
    rw [hpair]; exact lowerTrim_label_ne hmeml
  have hmain := getP_foldl_applyField_at row (FIELD_LABELS.zip FIELD_KEYS) emptyRecord idx hp hnd h1 h2
  rw [hpair] at hmain
  exact hmain

/-- C1 witness: the header `"NAME OF THE BLOCK  "` populates the field
labelled `"Name of the Block"` (index 1) through tier 3. -/
theorem mapRow_tier_policy_witness :
    getP (mapRow [("NAME OF THE BLOCK  ", "tier3")]) (FIELD_KEYS.getD 1 "")
      = some (specResolve [("NAME OF THE BLOCK  ", "tier3")]
          (FIELD_LABELS.getD 1 "") (FIELD_KEYS.getD 1 "")) ∧
    specResolve [("NAME OF THE BLOCK  ", "tier3")]
        (FIELD_LABELS.getD 1 "") (FIELD_KEYS.getD 1 "") = "tier3" :=
  ⟨mapRow_resolves_by_tier_policy _ 1 (by decide), by decide⟩

/-! ## Export serialization theorems -/

theorem foldl_setP_eq_map {α : Type} (f : String × String → α) :
    ∀ (P : List (String × String)) (o : List (String × α)),
      (∀ p ∈ P, p.1 ∉ keysOf o) → (P.map Prod.fst).Nodup →
      P.foldl (fun acc p => setP acc p.1 (f p)) o = o ++ P.map (fun p => (p.1, f p)) := by
  intro P
  induction P with
  | nil => intro o _ _; simp
  | cons p rest ih =>
    intro o hfresh hnd
    have hnd2 : (p.1 :: rest.map Prod.fst).Nodup := by
      rw [List.map_cons] at hnd; exact hnd
    have hcons := List.nodup_cons.mp hnd2
    rw [List.foldl_cons, setP_of_not_mem o (f p) (hfresh p (List.mem_cons_self _ _))]
    rw [ih (o ++ [(p.1, f p)]) ?_ hcons.2]
    · simp
    · intro q hq
      have h1 : q.1 ∉ keysOf o := hfresh q (List.mem_cons_of_mem _ hq)
      have h2 : q.1 ≠ p.1 := fun he => hcons.1 (he ▸ List.mem_map_of_mem _ hq)
      intro hmem
      simp only [keysOf, List.map_append] at hmem
      rcases List.mem_append.mp hmem with hm | hm
      · exact h1 hm
      · exact h2 (by simpa using hm)

theorem exportRow_eq_map (rec : Obj) :
    exportRow rec = (FIELD_LABELS.zip FIELD_KEYS).map (fun p => (p.1, getP rec p.2)) := by
  unfold exportRow
  have h := foldl_setP_eq_map (fun p => getP rec p.2) (FIELD_LABELS.zip FIELD_KEYS) []
    (by intro p _; simp [keysOf]) (by rw [fieldPairs_map_fst]; exact field_labels_nodup)
  simpa using h

theorem keysOf_exportRow (rec : Obj) : keysOf (exportRow rec) = FIELD_LABELS := by
  rw [exportRow_eq_map]
  simp only [keysOf, List.map_map]
  have hcomp : (Prod.fst ∘ fun p : String × String => (p.1, getP rec p.2)) = Prod.fst := rfl
  rw [hcomp, fieldPairs_map_fst]

theorem getP_cons_self {α : Type} (p : String × α) (rest : List (String × α)) :
    getP (p :: rest) p.1 = some p.2 := by
  simp [getP, List.find?_cons]

theorem getP_cons_ne {α : Type} (p : String × α) (rest : List (String × α)) {k : String}
    (h : p.1 ≠ k) : getP (p :: rest) k = getP rest k := by
  simp [getP, List.find?_cons, h]

theorem getP_getElem_of_nodup {α : Type} :
    ∀ (L : List (String × α)) (idx : Nat) (h : idx < L.length), (keysOf L).Nodup →
      getP L L[idx].1 = some L[idx].2 := by
  intro L
  induction L with
  | nil => intro idx h; simp at h
  | cons p rest ih =>
    intro idx h hnd
    have hnd2 : (p.1 :: rest.map Prod.fst).Nodup := by
      simp only [keysOf, List.map_cons] at hnd; exact hnd
    have hcons := List.nodup_cons.mp hnd2
    cases idx with
    | zero =>
      rw [List.getElem_cons_zero]
      exact getP_cons_self p rest
    | succ n =>
      rw [List.getElem_cons_succ]
      have hn : n < rest.length := Nat.lt_of_succ_lt_succ h
      have hkmem : rest[n].1 ∈ rest.map Prod.fst :=
        List.mem_map_of_mem _ (List.getElem_mem hn)
      have hne : p.1 ≠ rest[n].1 := fun he => hcons.1 (he ▸ hkmem)
      rw [getP_cons_ne p rest hne]
      exact ih n hn hcons.2

/-- C3 counterexample: for a (hypothetical) record that lacks the schema
keys, the exported row's cell for `"Name of the Block"` is the absent
value `undefined` (`none`) — not the empty string the claim asserts. -/
theorem export_missing_key_undefined_cex :
    downloadExcel [([] : Obj)] = ExportOutcome.fileRows [exportRow []] ∧
    getP (exportRow ([] : Obj)) "Name of the Block" = some none ∧
    getP (exportRow ([] : Obj)) "Name of the Block" ≠ some (some "") :=
  ⟨rfl, by decide, by decide⟩

/-- C3 amended: for every non-empty collection, `downloadExcel` produces
one output row per record whose headers are exactly the schema labels in
schema order; each label's cell holds the record's JS property value at
the corresponding schema key (so keys the record carries beyond the
schema are ignored, and a key missing from the record yields the absent
`undefined` value rather than the empty string). -/
theorem downloadExcel_schema_exact_headers (records : List Obj) (hne : records ≠ []) :
    downloadExcel records = ExportOutcome.fileRows (records.map exportRow) ∧
    (records.map exportRow).length = records.length ∧
    ∀ rec ∈ records,
      keysOf (exportRow rec) = FIELD_LABELS ∧
      ∀ idx, idx < FIELD_LABELS.length →
        getP (exportRow rec) (FIELD_LABELS.getD idx "")
          = some (getP rec (FIELD_KEYS.getD idx "")) := by
  refine ⟨?_, by simp, ?_⟩
  · unfold downloadExcel
    rw [if_neg (by simpa [List.length_eq_zero] using hne)]
  · intro rec _
    refine ⟨keysOf_exportRow rec, ?_⟩
    intro idx hidx
    have hk : idx < FIELD_KEYS.length := by rw [length_field_keys]; exact hidx
    have hp : idx < (FIELD_LABELS.zip FIELD_KEYS).length := by
      rw [length_fieldPairs]; exact hidx
    have hL : idx < (exportRow rec).length := by
      rw [exportRow_eq_map, List.length_map, length_fieldPairs]; exact hidx
    have hnodup : (keysOf (exportRow rec)).Nodup := by
      rw [keysOf_exportRow]; exact field_labels_nodup
    have hmain := getP_getElem_of_nodup (exportRow rec) idx hL hnodup
    have e1 : (exportRow rec)[idx] = (FIELD_LABELS.getD idx "", getP rec (FIELD_KEYS.getD idx "")) := by
      simp only [exportRow_eq_map, List.getElem_map, List.getElem_zip]
      rw [List.getD_eq_getElem _ _ hidx, List.getD_eq_getElem _ _ hk]
    rw [e1] at hmain
    exact hmain

/-- C3 amended witness at a one-record collection. -/
theorem downloadExcel_schema_exact_headers_witness :
    downloadExcel [emptyRecord] = ExportOutcome.fileRows [exportRow emptyRecord] ∧
    keysOf (exportRow emptyRecord) = FIELD_LABELS := by
  have h := downloadExcel_schema_exact_headers [emptyRecord] (by simp)
  exact ⟨by simpa using h.1, (h.2.2 emptyRecord (by simp)).1⟩

/-! ## The schema-keys invariant -/

theorem keysOf_buildFormRecord {v : List (String × String)}
    (hv : ∀ p ∈ v, p.1 ∈ FIELD_KEYS) : keysOf (buildFormRecord v) = FIELD_KEYS := by
  unfold buildFormRecord
  suffices hgen : ∀ (w : List (String × String)) (acc : Obj), keysOf acc = FIELD_KEYS →
      (∀ p ∈ w, p.1 ∈ FIELD_KEYS) →
      keysOf (w.foldl (fun acc p => setP acc p.1 p.2) acc) = FIELD_KEYS by
    exact hgen v emptyRecord keysOf_emptyRecord hv
  intro w
  induction w with
  | nil => intro acc hacc _; exact hacc
  | cons p rest ih =>
    intro acc hacc hw
    rw [List.foldl_cons]
    refine ih _ ?_ (fun q hq => hw q (List.mem_cons_of_mem _ hq))
    rw [keysOf_setP_of_mem _ _ (by rw [hacc]; exact hw p (List.mem_cons_self _ _))]
    exact hacc

theorem keysOf_applyField (row out : Obj) {label key : String} (hkey : key ∈ FIELD_KEYS)
    (hout : keysOf out = FIELD_KEYS) : keysOf (applyField row out label key) = FIELD_KEYS := by
  unfold applyField
  cases h1 : getP row label with
  | some v => rw [keysOf_setP_of_mem _ _ (by rw [hout]; exact hkey)]; exact hout
  | none =>
    cases h2 : getP row key with
    | some v => rw [keysOf_setP_of_mem _ _ (by rw [hout]; exact hkey)]; exact hout
    | none =>
      cases h3 : (keysOf row).find? (fun h => lowerTrim h == lowerTrim label) with
      | some hh =>
        show keysOf (if (hh == "") = true then out
          else setP out key ((getP row hh).getD "")) = FIELD_KEYS
        by_cases h4 : hh = ""
        · rw [if_pos (by simpa using h4)]; exact hout
        · rw [if_neg (by simpa using h4)]
          rw [keysOf_setP_of_mem _ _ (by rw [hout]; exact hkey)]
          exact hout
      | none => exact hout

theorem keysOf_mapRow (row : Obj) : keysOf (mapRow row) = FIELD_KEYS := by
  unfold mapRow
  suffices hgen : ∀ (P : List (String × String)) (out : Obj), (∀ p ∈ P, p.2 ∈ FIELD_KEYS) →
      keysOf out = FIELD_KEYS →
      keysOf (P.foldl (fun o p => applyField row o p.1 p.2) out) = FIELD_KEYS by
    refine hgen _ emptyRecord ?_ keysOf_emptyRecord
    intro p hp
    have hp' : (p.1, p.2) ∈ FIELD_LABELS.zip FIELD_KEYS := hp
    exact (List.of_mem_zip hp').2
  intro P
  induction P with
  | nil => intro out _ hout; exact hout
  | cons p rest ih =>
    intro out hP hout
    rw [List.foldl_cons]
    exact ih _ (fun q hq => hP q (List.mem_cons_of_mem _ hq))
      (keysOf_applyField row out (hP p (List.mem_cons_self _ _)) hout)

theorem stepOp_preserves (rs : List Obj) (op : Op)
    (hrs : ∀ r ∈ rs, keysOf r = FIELD_KEYS) (hop : opOK rs op = true) :
    ∀ r ∈ stepOp rs op, keysOf r = FIELD_KEYS := by
  cases op with
  | create v =>
    intro r hr
    have hform : keysOf (buildFormRecord v) = FIELD_KEYS := by
      refine keysOf_buildFormRecord ?_
      intro p hp
      have hop' : v.all (fun p => FIELD_KEYS.contains p.1) = true := hop
      have hc := List.all_eq_true.mp hop' p hp
      simpa using hc
    have hstep : stepOp rs (.create v) = rs ++ [buildFormRecord v] := by
      simp [stepOp, handleSubmit]
    rw [hstep] at hr
    rcases List.mem_append.mp hr with h | h
    · exact hrs r h
    · rw [List.mem_singleton.mp h]; exact hform
  | update i v =>
    intro r hr
    simp only [opOK, Bool.and_eq_true, decide_eq_true_eq] at hop
    have hform : keysOf (buildFormRecord v) = FIELD_KEYS := by
      refine keysOf_buildFormRecord ?_
      intro p hp
      have hc := List.all_eq_true.mp hop.2 p hp
      simpa using hc
    have hstep : stepOp rs (.update i v) = rs.set i (buildFormRecord v) := by
      simp only [stepOp, handleSubmit, jsArraySet]
      rw [if_pos (Int.natCast_nonneg i), Int.toNat_ofNat, if_pos hop.1]
    rw [hstep] at hr
    rcases List.mem_or_eq_of_mem_set hr with h | h
    · exact hrs r h
    · rw [h]; exact hform
  | importRows rows =>
    intro r hr
    by_cases hrow : rows.length = 0
    · simp only [stepOp, importExcel, if_pos hrow] at hr
      exact hrs r hr
    · simp only [stepOp, importExcel, if_neg hrow] at hr
      rcases List.mem_append.mp hr with h | h
      · exact hrs r h
      · rcases List.mem_map.mp h with ⟨row, _, rfl⟩
        exact keysOf_mapRow row

theorem runOps_preserves : ∀ (ops : List Op) (rs : List Obj),
    (∀ r ∈ rs, keysOf r = FIELD_KEYS) → opsOK rs ops = true →
    ∀ r ∈ runOps rs ops, keysOf r = FIELD_KEYS := by
  intro ops
  induction ops with
  | nil => intro rs hrs _ r hr; exact hrs r hr
  | cons op rest ih =>
    intro rs hrs hok r hr
    simp only [opsOK, Bool.and_eq_true] at hok
    exact ih (stepOp rs op) (stepOp_preserves rs op hrs hok.1) hok.2 r
      (by simpa [runOps] using hr)

/-- C5: starting from the empty collection, after any sequence of create,
update (valid index) and import operations whose submitted values are
keyed by schema keys, every record in the collection has an entry for
exactly the schema's keys: none missing, none beyond the schema. -/
theorem records_have_exact_schema_keys (ops : List Op) (hok : opsOK [] ops = true) :
    ∀ r ∈ runOps [] ops,
      (∀ k ∈ FIELD_KEYS, (getP r k).isSome = true) ∧ (∀ p ∈ r, p.1 ∈ FIELD_KEYS) := by
  intro r hr
  have hkeys := runOps_preserves ops [] (by simp) hok r hr
  constructor
  · intro k hk
    exact getP_isSome_of_mem r (by rw [hkeys]; exact hk)
  · intro p hp
    have hm : p.1 ∈ keysOf r := List.mem_map_of_mem _ hp
    rwa [hkeys] at hm

/-- C5 witness: one create followed by lookup of a schema key. -/
theorem records_have_exact_schema_keys_witness :
    (getP (buildFormRecord [("month", "Jan")]) "name_of_the_block").isSome = true := by
  have h := records_have_exact_schema_keys [Op.create [("month", "Jan")]] (by decide)
  have hmem : buildFormRecord [("month", "Jan")] ∈ runOps [] [Op.create [("month", "Jan")]] := by
    simp [runOps, stepOp, handleSubmit]
  exact (h _ hmem).1 "name_of_the_block" (by decide)

end Saans
